import Mathlib

/-!
Shallow embedding of the cocktail-recipes repository's category-closure
engine and inventory/recipe satisfiability matcher, together with the
suggestion workflow, the categorizer entry point and the import matcher.

Sources embedded:
* `src/ingredients/models.py` (closure table rows, suggestion state machine)
* `src/inventory/services.py` (`get_makeable_recipes`)
* `src/recipes/views.py` (`_get_ingredient_match_sets`, depth clamping)
* `src/recipes/management/commands/fix_category_hierarchy.py` (`reparent_category`)
* `src/ingredients/services/categorizer.py` (`categorize_ingredient`)
* `src/recipes/services/image_parser.py` (`match_ingredients` and helpers)

Database ids are modelled as `Nat`.  Python `set` values are modelled as
lists whose only observable property is membership, matching how the sets
are consumed (membership tests inside `IN (...)` filters).  SQL
`ORDER BY` is modelled as a stable insertion sort.
-/

/-- Stable insertion of `x` into `l`, keeping `x` before later ties. -/
def insertLe {α : Type} (le : α → α → Bool) (x : α) : List α → List α
  | [] => [x]
  | y :: ys => if le x y then x :: y :: ys else y :: insertLe le x ys

/-- Stable sort used to model SQL `ORDER BY`. -/
def orderBy {α : Type} (le : α → α → Bool) : List α → List α
  | [] => []
  | x :: xs => insertLe le x (orderBy le xs)

theorem mem_insertLe {α : Type} (le : α → α → Bool) (x a : α) (l : List α) :
    a ∈ insertLe le x l ↔ a = x ∨ a ∈ l := by
  induction l with
  | nil => simp [insertLe]
  | cons y ys ih =>
      by_cases h : le x y = true
      · simp [insertLe, h]
      · rw [insertLe, if_neg h]
        simp only [List.mem_cons, ih]
        tauto

theorem mem_orderBy {α : Type} (le : α → α → Bool) (a : α) (l : List α) :
    a ∈ orderBy le l ↔ a ∈ l := by
  induction l with
  | nil => simp [orderBy]
  | cons y ys ih => simp [orderBy, mem_insertLe, ih]

/-- One row of the `UserInventory` table: per (user, ingredient) `in_stock`
flag (`src/inventory/models.py`). -/
structure InventoryRow where
  user : Nat
  ingredient : Nat
  inStock : Bool
deriving DecidableEq, Repr

/-- One row of the `IngredientCategoryAncestor` closure table
(`src/ingredients/models.py` lines 44-82): `depth` is a
`PositiveIntegerField`, hence a `Nat` (0 = self, 1 = parent, ...). -/
structure ClosureRow where
  category : Nat
  ancestor : Nat
  depth : Nat
deriving DecidableEq, Repr

/-- An `Ingredient` record with its many-to-many `categories` set. -/
structure IngredientRec where
  id : Nat
  cats : List Nat
deriving DecidableEq, Repr

/-- One `RecipeIngredient` line: the ingredient it references and the
`optional` flag. -/
structure RecipeLine where
  ingredientId : Nat
  optLine : Bool
deriving DecidableEq, Repr

/-- A `Recipe` with its ingredient lines. -/
structure Recipe where
  id : Nat
  name : String
  lines : List RecipeLine
deriving DecidableEq, Repr

/-- The database state the matcher queries. -/
structure Db where
  inventory : List InventoryRow
  closure : List ClosureRow
  ingredients : List IngredientRec
  recipes : List Recipe
deriving DecidableEq, Repr

/-- Step 1 of `get_makeable_recipes` (`src/inventory/services.py` lines
27-31): the user's in-stock ingredient ids. -/
def user_ing_ids (db : Db) (u : Nat) : List Nat :=
  (db.inventory.filter (fun r => r.user == u && r.inStock)).map (·.ingredient)

/-- Step 2 (`services.py` lines 49-53): ancestors (up to `closure_depth`)
of the categories of the user's in-stock ingredients.  Membership test for
the set `user_ancestor_categories`. -/
def user_ancestor_categories (db : Db) (u : Nat) (closureDepth : Int)
    (a : Nat) : Bool :=
  db.closure.any (fun r =>
    r.ancestor == a && decide ((r.depth : Int) ≤ closureDepth) &&
      db.ingredients.any (fun ing =>
        (user_ing_ids db u).contains ing.id && ing.cats.contains r.category))

/-- Step 3 (`services.py` lines 58-62): all categories descending from any
of the user's ancestor categories.  Membership test for the set
`all_satisfiable_categories`.  `closure_depth = max_depth - 1`. -/
def all_satisfiable_categories (db : Db) (u : Nat) (maxDepth : Int)
    (c : Nat) : Bool :=
  db.closure.any (fun r =>
    r.category == c && user_ancestor_categories db u (maxDepth - 1) r.ancestor)

/-- Steps 1-4 of `get_makeable_recipes` combined (`services.py` lines
36-73): membership test for the set `satisfiable_ids`.  At `max_depth = 0`
it is the raw in-stock set; otherwise it is every ingredient whose
category set meets `all_satisfiable_categories`, unioned with the raw
in-stock set. -/
def satisfiable_ids (db : Db) (u : Nat) (maxDepth : Int) (i : Nat) : Bool :=
  if maxDepth == 0 then
    (user_ing_ids db u).contains i
  else
    db.ingredients.any (fun ing =>
      ing.id == i && ing.cats.any (all_satisfiable_categories db u maxDepth)) ||
      (user_ing_ids db u).contains i

/-- The `required_count` annotation: number of non-optional lines. -/
def required_count (r : Recipe) : Nat :=
  (r.lines.filter (fun l => !l.optLine)).length

/-- The `satisfied_count` annotation: number of non-optional lines whose
ingredient id is in `satisfiable_ids`. -/
def satisfied_count (db : Db) (u : Nat) (maxDepth : Int) (r : Recipe) : Nat :=
  (r.lines.filter (fun l =>
    !l.optLine && satisfiable_ids db u maxDepth l.ingredientId)).length

/-- Embedding of `get_makeable_recipes(user, max_depth)` (`services.py` lines 11-100):
empty inventory short-circuits to an empty result; otherwise recipes with
`required_count == satisfied_count` and `required_count > 0`, ordered by
name. -/
def get_makeable_recipes (db : Db) (u : Nat) (maxDepth : Int) : List Recipe :=
  if (user_ing_ids db u).isEmpty then []
  else
    orderBy (fun a b => a.name ≤ b.name)
      (db.recipes.filter (fun r =>
        required_count r == satisfied_count db u maxDepth r &&
          required_count r != 0))

/-- Embedding of `_get_ingredient_match_sets(user, max_depth)` (`src/recipes/views.py`
lines 80-114).  Returns the exact in-stock ids and the category-match ids
(the latter with the exact ids subtracted).  The category machinery
duplicates steps 2-4 of `get_makeable_recipes`, so the same membership
functions are reused. -/
def get_ingredient_match_sets (db : Db) (u : Nat) (maxDepth : Int) :
    List Nat × List Nat :=
  let uids := user_ing_ids db u
  if uids.isEmpty || maxDepth == 0 then (uids, [])
  else
    let category_match_ids :=
      (db.ingredients.filter (fun ing =>
        ing.cats.any (all_satisfiable_categories db u maxDepth))).map (·.id)
    (uids, category_match_ids.filter (fun i => !uids.contains i))

/-- The depth clamp in `available_recipes` (`src/recipes/views.py` lines
122-123): `max_depth = max(0, min(3, max_depth))`. -/
def clamp_depth (d : Int) : Int := max 0 (min 3 d)

/-- Embedding of `available_recipes` (`views.py` lines 117-127) feeds the clamped depth
to `get_makeable_recipes`; the request is never rejected. -/
def available_recipes (db : Db) (u : Nat) (d : Int) : List Recipe :=
  get_makeable_recipes db u (clamp_depth d)

/-- First-match lookup of a closure row by its `(category, ancestor)` key,
modelling `IngredientCategoryAncestor.objects.filter(category=..,
ancestor=..).first()`. -/
def findRow (t : List ClosureRow) (c a : Nat) : Option ClosureRow :=
  t.find? (fun r => r.category == c && r.ancestor == a)

/-- The depth the reparent code reads off such a lookup, with its
`if row else 0` default (`fix_category_hierarchy.py` lines 178-198). -/
def depthOf (t : List ClosureRow) (c a : Nat) : Nat :=
  match findRow t c a with
  | some r => r.depth
  | none => 0

/-- The precondition probe of `reparent_category`
(`fix_category_hierarchy.py` lines 163-167): does a row
`(category, ancestor, depth)` exist? -/
def hasLink (t : List ClosureRow) (c a d : Nat) : Bool :=
  t.any (fun r => r.category == c && r.ancestor == a && r.depth == d)

/-- Embedding of `IngredientCategory.get_descendants(include_self=True)`
(`src/ingredients/models.py` lines 35-41): categories having a closure row
to `c`, ordered by that row's depth. -/
def get_descendants (t : List ClosureRow) (c : Nat) : List Nat :=
  (orderBy (fun r s => r.depth ≤ s.depth)
    (t.filter (fun r => r.ancestor == c))).map (·.category)

/-- Embedding of `IngredientCategory.get_ancestors(include_self=True)`
(`src/ingredients/models.py` lines 27-33): categories `c` has a closure
row to, ordered by depth. -/
def get_ancestors (t : List ClosureRow) (c : Nat) : List Nat :=
  (orderBy (fun r s => r.depth ≤ s.depth)
    (t.filter (fun r => r.category == c))).map (·.ancestor)

/-- Embedding of `objects.get_or_create(category=.., ancestor=.., defaults=depth)`:
insert the row only when no row with that key exists. -/
def getOrCreate (t : List ClosureRow) (c a d : Nat) : List ClosureRow :=
  match findRow t c a with
  | some _ => t
  | none => t ++ [⟨c, a, d⟩]

/-- Inner loop of `reparent_category` (`fix_category_hierarchy.py` lines
190-210): for one descendant `d` with offset `base`, walk the new
parent's ancestor list and insert the missing rows at depth
`base + 1 + parent_depth`. -/
def reparentInner (newParent d base : Nat) (pas : List Nat)
    (t : List ClosureRow) : List ClosureRow :=
  pas.foldl (fun acc a => getOrCreate acc d a (base + 1 + depthOf acc newParent a)) t

/-- Outer loop of `reparent_category` (lines 176-210): for each descendant
of `child`, read its offset to `child` from the live table and run the
inner loop. -/
def reparentLoop (child newParent : Nat) (descs pas : List Nat)
    (t : List ClosureRow) : List ClosureRow :=
  descs.foldl (fun acc d => reparentInner newParent d (depthOf acc d child) pas acc) t

/-- Embedding of `reparent_category(child, new_parent)` (`fix_category_hierarchy.py`
lines 154-210): no-op when a depth-1 row to the new parent already exists,
otherwise extend the closure rows of every descendant of `child` by the
ancestors of `new_parent`. -/
def reparent_category (t : List ClosureRow) (child newParent : Nat) :
    List ClosureRow :=
  if hasLink t child newParent 1 then t
  else
    reparentLoop child newParent (get_descendants t child)
      (get_ancestors t newParent) t

/-- The closure-store key invariant (`unique_together = [category,
ancestor]` in `src/ingredients/models.py`). -/
def keysUnique : List ClosureRow → Bool
  | [] => true
  | r :: rs =>
      !(rs.any (fun s => s.category == r.category && s.ancestor == r.ancestor)) &&
        keysUnique rs

/-- Embedding of `IngredientCategorySuggestion.Status` (`src/ingredients/models.py`
lines 129-132). -/
inductive SuggStatus where
  | pending
  | approved
  | rejected
deriving DecidableEq, Repr

/-- The state touched by the approval workflow: the suggestion's
ingredient (its category set and `needs_categorization` flag) and the
suggestion's own review fields. -/
structure ApprovalState where
  ingCats : List Nat
  needsCategorization : Bool
  status : SuggStatus
  reviewedAt : Option Nat
  reviewedBy : Option Nat
deriving DecidableEq, Repr

/-- Embedding of `IngredientCategorySuggestion.approve(user)` (`src/ingredients/models.py`
lines 181-189): unconditionally adds the suggested category to the
ingredient (idempotent M2M add), clears `needs_categorization`, marks the
suggestion approved and records reviewer and time.  The status guard lives
in the admin action, not here. -/
def approveSugg (cat : Nat) (user : Option Nat) (now : Nat)
    (st : ApprovalState) : ApprovalState :=
  { st with
    ingCats := if st.ingCats.contains cat then st.ingCats else st.ingCats ++ [cat]
    needsCategorization := false
    status := SuggStatus.approved
    reviewedAt := some now
    reviewedBy := user }

/-- Embedding of `approve_selected` (`src/ingredients/admin.py` lines 473-484)
restricted to one selected suggestion: the queryset is first filtered to
`status=pending`, so a non-pending suggestion is skipped; the returned
count is what drives the success ("Approved n") versus info ("No pending
suggestions to approve") message. -/
def approve_selected (cat : Nat) (user : Option Nat) (now : Nat)
    (st : ApprovalState) : ApprovalState × Nat :=
  if st.status = SuggStatus.pending then (approveSugg cat user now st, 1)
  else (st, 0)

/-- A stored `IngredientCategorySuggestion` row as the categorizer sees
it. -/
structure SuggRow where
  ingredient : Nat
  category : Nat
  status : SuggStatus
  confidence : ℚ
deriving DecidableEq, Repr

/-- Constant `MIN_CONFIDENCE` (`src/ingredients/services/categorizer.py` line 25);
the float `0.3` modelled as the rational `3/10`. -/
def MIN_CONFIDENCE : ℚ := 3 / 10

/-- Embedding of `categorize_ingredient` (`categorizer.py` lines 241-299) with the LLM
capability's result `(category-or-none, confidence, ...)` passed in as
data: no category → `None`; confidence strictly below `MIN_CONFIDENCE` →
`None` with nothing stored; an existing pending suggestion for the same
pair is returned as-is; otherwise a new pending row is created.  Returns
the suggestion (if any) and the updated suggestion store. -/
def categorize_ingredient (ing : Nat) (capCategory : Option Nat)
    (confidence : ℚ) (suggs : List SuggRow) : Option SuggRow × List SuggRow :=
  match capCategory with
  | none => (none, suggs)
  | some cat =>
      if confidence < MIN_CONFIDENCE then (none, suggs)
      else
        match suggs.find? (fun s =>
            s.ingredient == ing && s.category == cat &&
              s.status == SuggStatus.pending) with
        | some existing => (some existing, suggs)
        | none =>
            let s : SuggRow := ⟨ing, cat, SuggStatus.pending, confidence⟩
            (some s, suggs ++ [s])

/-- Model of Python's `str.lower()` (ASCII case folding), written with
structural recursion so concrete instances evaluate. -/
def str_lower (s : String) : String := String.mk (s.data.map Char.toLower)

/-- Model of Python's `str.upper()`. -/
def str_upper (s : String) : String := String.mk (s.data.map Char.toUpper)

/-- Constant `MATCH_THRESHOLD` (`src/recipes/services/image_parser.py` line 19);
the float `0.6` modelled as the rational `6/10`. -/
def MATCH_THRESHOLD : ℚ := 6 / 10

/-- Embedding of `_find_fuzzy_matches` (`image_parser.py` lines 470-489) with the
`SequenceMatcher.ratio` similarity passed in as a function parameter
(`difflib` is external to the repository): keep names whose lowercased
similarity reaches the threshold, sort by ratio descending (stable, like
Python's `sort`), take the top 3. -/
def find_fuzzy_matches (ratio : String → String → ℚ) (parsedName : String)
    (existingNames : List String) : List (String × ℚ) :=
  (orderBy (fun a b => b.2 ≤ a.2)
    ((existingNames.map (fun n => (n, ratio (str_lower parsedName) (str_lower n)))).filter
      (fun p => decide (MATCH_THRESHOLD ≤ p.2)))).take 3

/-- The per-ingredient outcome of `match_ingredients` (`image_parser.py`
lines 378-455): the final name decision, the `log_entry` status and
`candidates_checked` fields, and the list of name pairs handed to the
verification capability (a side effect in the source, returned as data
here). -/
structure MatchOutcome where
  finalName : String
  status : String
  matchedTo : Option String
  candidatesChecked : List (String × ℚ)
  verifyCalls : List (String × String)
deriving DecidableEq, Repr

/-- The candidate-verification loop (`image_parser.py` lines 420-455):
try candidates in order, stopping at the first the boolean verification
capability confirms. -/
def verifyLoop (verify : String → String → Bool) (parsedName : String)
    (checked : List (String × ℚ)) (calls : List (String × String)) :
    List (String × ℚ) → MatchOutcome
  | [] =>
      ⟨str_upper parsedName, "no_match", none, checked, calls⟩
  | (cand, sim) :: rest =>
      if verify parsedName cand then
        ⟨cand, "fuzzy_matched", some cand, checked ++ [(cand, sim)],
          calls ++ [(parsedName, cand)]⟩
      else
        verifyLoop verify parsedName (checked ++ [(cand, sim)])
          (calls ++ [(parsedName, cand)]) rest

/-- One ingredient name's pass through `match_ingredients`
(`image_parser.py` lines 373-455).  `name_lookup` is the dict
`(name.lower(), name)` built from `existing_ingredients`; for duplicate
lowered keys the later entry wins, hence the reversed `find?`.  An exact
case-insensitive hit short-circuits before `_find_fuzzy_matches` and
before any verification call. -/
def match_ingredient_name (ratio : String → String → ℚ)
    (verify : String → String → Bool) (existingNames : List String)
    (parsedName : String) : MatchOutcome :=
  match existingNames.reverse.find? (fun n => str_lower n == str_lower parsedName) with
  | some dbName => ⟨dbName, "exact_match", some dbName, [], []⟩
  | none =>
      match find_fuzzy_matches ratio parsedName existingNames with
      | [] => ⟨str_upper parsedName, "no_match", none, [], []⟩
      | c :: cs => verifyLoop verify parsedName [] [] (c :: cs)

/-- A one-user, one-recipe database used to instantiate theorems on
concrete inputs: user 1 stocks ingredient 10, and recipe "A" needs
exactly ingredient 10. -/
def sampleDb : Db :=
  ⟨[⟨1, 10, true⟩], [], [], [⟨1, "A", [⟨10, false⟩]⟩]⟩

/-- The recipe of `sampleDb`. -/
def sampleRecipe : Recipe := ⟨1, "A", [⟨10, false⟩]⟩

/-- A two-category closure table (two roots 1 and 2, self-rows only). -/
def sampleClosure : List ClosureRow := [⟨1, 1, 0⟩, ⟨2, 2, 0⟩]

/-- An already-approved suggestion state. -/
def sampleApproved : ApprovalState :=
  ⟨[], true, SuggStatus.approved, none, none⟩

theorem contains_iff_mem (l : List Nat) (a : Nat) : l.contains a = true ↔ a ∈ l := by
  simp

/-- Auxiliary: an element of a list filtered by non-membership in `uids`
is never also in `uids`. -/
theorem contains_filter_not_contains (l uids : List Nat) (i : Nat) :
    ((l.filter (fun j => !uids.contains j)).contains i && uids.contains i) = false := by
  cases hf : (l.filter (fun j => !uids.contains j)).contains i
  · simp
  · have hi : i ∈ l.filter (fun j => !uids.contains j) :=
      (contains_iff_mem _ _).mp hf
    have h2 := (List.mem_filter.mp hi).2
    simp only [Bool.not_eq_true'] at h2
    rw [Bool.true_and]
    exact h2

/-- C5: for a suggestion that is not pending (already approved or
rejected), the approve action leaves the ingredient's categories,
`needs_categorization`, and the suggestion's status/review fields
unchanged and reports zero approvals; consequently a second approval of
the same suggestion always fails with no effect. -/
theorem approve_nonpending_noop (cat cat2 : Nat) (user user2 : Option Nat)
    (now now2 : Nat) (st : ApprovalState) :
    (st.status ≠ SuggStatus.pending → approve_selected cat user now st = (st, 0)) ∧
      approve_selected cat2 user2 now2 (approve_selected cat user now st).1 =
        ((approve_selected cat user now st).1, 0) := by
  constructor
  · intro h
    simp [approve_selected, h]
  · by_cases h : st.status = SuggStatus.pending
    · simp [approve_selected, h, approveSugg]
    · simp [approve_selected, h]

/-- Witness for C5 at a concrete approved suggestion. -/
theorem approve_nonpending_noop_witness :
    sampleApproved.status ≠ SuggStatus.pending ∧
      approve_selected 5 (some 1) 11 sampleApproved = (sampleApproved, 0) :=
  ⟨by decide,
    (approve_nonpending_noop 5 5 (some 1) (some 1) 11 11 sampleApproved).1 (by decide)⟩

/-- C6: the caller-side depth parameter is clamped into the fixed range
0..3 - values below 0 become 0, values above 3 become 3, in-range values
pass through - so no depth is ever rejected. -/
theorem clamp_depth_clamps (d : Int) :
    (d < 0 → clamp_depth d = 0) ∧ (3 < d → clamp_depth d = 3) ∧
      (0 ≤ d → d ≤ 3 → clamp_depth d = d) ∧
      0 ≤ clamp_depth d ∧ clamp_depth d ≤ 3 := by
  unfold clamp_depth
  refine ⟨?_, ?_, ?_, ?_, ?_⟩ <;> intros <;> omega

/-- Witness for C6 at concrete depths below, above and inside the range. -/
theorem clamp_depth_clamps_witness :
    clamp_depth (-7) = 0 ∧ clamp_depth 9 = 3 ∧ clamp_depth 2 = 2 :=
  ⟨(clamp_depth_clamps (-7)).1 (by decide),
    (clamp_depth_clamps 9).2.1 (by decide),
    (clamp_depth_clamps 2).2.2.1 (by decide) (by decide)⟩

/-- C7: when the categorization capability's confidence is strictly below
`MIN_CONFIDENCE` (0.3), `categorize_ingredient` returns `None` and the
stored suggestions are unchanged - no record of any status is created. -/
theorem categorize_below_threshold (ing : Nat) (capCat : Option Nat)
    (conf : ℚ) (suggs : List SuggRow) (h : conf < MIN_CONFIDENCE) :
    categorize_ingredient ing capCat conf suggs = (none, suggs) := by
  cases capCat with
  | none => rfl
  | some c => simp [categorize_ingredient, h]

/-- Witness for C7 at confidence 1/5 < 3/10. -/
theorem categorize_below_threshold_witness :
    (1 : ℚ) / 5 < MIN_CONFIDENCE ∧
      categorize_ingredient 7 (some 3) ((1 : ℚ) / 5) [] = (none, []) :=
  ⟨by norm_num [MIN_CONFIDENCE],
    categorize_below_threshold 7 (some 3) ((1 : ℚ) / 5) []
      (by norm_num [MIN_CONFIDENCE])⟩

/-- C9: the two sets returned by `_get_ingredient_match_sets` are
disjoint - no id is in both the exact set and the category-match set. -/
theorem match_sets_disjoint (db : Db) (u : Nat) (d : Int) (i : Nat) :
    ((get_ingredient_match_sets db u d).2.contains i &&
      (get_ingredient_match_sets db u d).1.contains i) = false := by
  by_cases h : ((user_ing_ids db u).isEmpty || d == 0) = true
  · simp [get_ingredient_match_sets, h]
  · simp only [get_ingredient_match_sets, h, Bool.false_eq_true, if_false]
    exact contains_filter_not_contains _ _ _

/-- C8: an exact case-insensitive name hit short-circuits the import
matcher - the log entry records an exact match, no fuzzy candidates are
collected, and the verification capability is never invoked, for every
similarity function and every verification oracle. -/
theorem exact_match_skips_fuzzy (ratio : String → String → ℚ)
    (verify : String → String → Bool) (existingNames : List String)
    (parsedName : String)
    (h : existingNames.any (fun n => str_lower n == str_lower parsedName) = true) :
    (match_ingredient_name ratio verify existingNames parsedName).status =
        "exact_match" ∧
      (match_ingredient_name ratio verify existingNames parsedName).candidatesChecked = [] ∧
      (match_ingredient_name ratio verify existingNames parsedName).verifyCalls = [] := by
  have h2 : (existingNames.reverse.find?
      (fun n => str_lower n == str_lower parsedName)).isSome := by
    rw [List.find?_isSome]
    rw [List.any_eq_true] at h
    obtain ⟨x, hx, hpx⟩ := h
    exact ⟨x, List.mem_reverse.mpr hx, hpx⟩
  obtain ⟨r, hr⟩ := Option.isSome_iff_exists.mp h2
  simp [match_ingredient_name, hr]

/-- Witness for C8 at a concrete catalog hit. -/
theorem exact_match_skips_fuzzy_witness :
    (["Campari"].any (fun n => str_lower n == str_lower "CAMPARI") = true) ∧
      (match_ingredient_name (fun _ _ => (0 : ℚ)) (fun _ _ => false)
        ["Campari"] "CAMPARI").status = "exact_match" :=
  ⟨by decide,
    (exact_match_skips_fuzzy (fun _ _ => (0 : ℚ)) (fun _ _ => false)
      ["Campari"] "CAMPARI" (by decide)).1⟩

/-- Auxiliary: a conjunctive filter never keeps more elements. -/
theorem length_filter_and_le {α : Type} (p q : α → Bool) (l : List α) :
    (l.filter (fun x => p x && q x)).length ≤ (l.filter p).length := by
  induction l with
  | nil => simp
  | cons a as ih =>
      cases hp : p a <;> cases hq : q a <;>
        simp [List.filter_cons, hp, hq] <;> omega

/-- Auxiliary: the conjunctive filter keeps exactly as many elements as the
plain one iff the second condition holds on everything the first keeps. -/
theorem length_filter_and_eq_iff {α : Type} (p q : α → Bool) (l : List α) :
    ((l.filter (fun x => p x && q x)).length = (l.filter p).length) ↔
      ∀ x ∈ l, p x = true → q x = true := by
  induction l with
  | nil => simp
  | cons a as ih =>
      cases hp : p a with
      | false =>
          have h1 : (p a && q a) = false := by simp [hp]
          rw [List.filter_cons, List.filter_cons, h1, hp,
            if_neg Bool.false_ne_true, if_neg Bool.false_ne_true, ih]
          constructor
          · intro h x hx
            rcases List.mem_cons.mp hx with rfl | hx'
            · intro hpx; exact absurd hpx (by simp [hp])
            · exact h x hx'
          · intro h x hx
            exact h x (List.mem_cons_of_mem a hx)
      | true =>
          cases hq : q a with
          | true =>
              have h1 : (p a && q a) = true := by simp [hp, hq]
              rw [List.filter_cons, List.filter_cons, h1, hp, if_pos rfl,
                if_pos rfl, List.length_cons, List.length_cons,
                Nat.add_right_cancel_iff, ih]
              constructor
              · intro h x hx
                rcases List.mem_cons.mp hx with rfl | hx'
                · intro _; exact hq
                · exact h x hx'
              · intro h x hx
                exact h x (List.mem_cons_of_mem a hx)
          | false =>
              have h1 : (p a && q a) = false := by simp [hp, hq]
              rw [List.filter_cons, List.filter_cons, h1, hp,
                if_neg Bool.false_ne_true, if_pos rfl, List.length_cons]
              have hle := length_filter_and_le p q as
              constructor
              · intro h; omega
              · intro h
                have := h a (List.mem_cons_self a as) hp
                rw [hq] at this
                exact absurd this (by simp)

/-- Auxiliary: a filter keeps something iff some element passes. -/
theorem length_filter_ne_zero_iff {α : Type} (p : α → Bool) (l : List α) :
    ((l.filter p).length ≠ 0) ↔ ∃ x ∈ l, p x = true := by
  rw [Ne, List.length_eq_zero, List.filter_eq_nil_iff]
  push_neg
  simp

/-- Auxiliary: with an empty inventory every layer of the satisfiable-set
computation collapses to `false`. -/
theorem satisfiable_empty (db : Db) (u : Nat) (d : Int) (i : Nat)
    (he : (user_ing_ids db u).isEmpty = true) :
    satisfiable_ids db u d i = false := by
  have h0 : user_ing_ids db u = [] := by simpa [List.isEmpty_iff] using he
  have huac : ∀ (cd : Int) (a : Nat), user_ancestor_categories db u cd a = false := by
    intro cd a
    unfold user_ancestor_categories
    rw [List.any_eq_false]
    intro r hr
    simp [h0]
  have hall : ∀ c, all_satisfiable_categories db u d c = false := by
    intro c
    unfold all_satisfiable_categories
    rw [List.any_eq_false]
    intro r hr
    simp [huac]
  unfold satisfiable_ids
  split
  · rw [h0]; simp
  · have h2 : db.ingredients.any (fun ing =>
        ing.id == i && ing.cats.any (all_satisfiable_categories db u d)) = false := by
      rw [List.any_eq_false]
      intro ing hing
      have : ing.cats.any (all_satisfiable_categories db u d) = false := by
        rw [List.any_eq_false]; intro c hc; simp [hall c]
      simp [this]
    rw [h2, h0]
    simp

/-- Characterization of `get_makeable_recipes` membership: a recipe is
returned iff it is a stored recipe, has at least one non-optional line,
and every non-optional line's ingredient is satisfiable. -/
theorem mem_makeable_iff (db : Db) (u : Nat) (d : Int) (r : Recipe) :
    r ∈ get_makeable_recipes db u d ↔
      r ∈ db.recipes ∧ (∃ l ∈ r.lines, l.optLine = false) ∧
        ∀ l ∈ r.lines, l.optLine = false →
          satisfiable_ids db u d l.ingredientId = true := by
  unfold get_makeable_recipes
  by_cases he : (user_ing_ids db u).isEmpty = true
  · rw [if_pos he]
    constructor
    · intro h; exact absurd h (List.not_mem_nil r)
    · rintro ⟨hmem, ⟨l, hl, hopt⟩, hall⟩
      have hsat := hall l hl hopt
      rw [satisfiable_empty db u d _ he] at hsat
      exact absurd hsat (by simp)
  · rw [if_neg he, mem_orderBy, List.mem_filter]
    refine and_congr_right fun _ => ?_
    rw [Bool.and_eq_true, beq_iff_eq, bne_iff_ne]
    unfold required_count satisfied_count
    constructor
    · rintro ⟨heq, hne⟩
      constructor
      · obtain ⟨x, hx, hpx⟩ := (length_filter_ne_zero_iff _ _).mp hne
        exact ⟨x, hx, by simpa using hpx⟩
      · intro l hl ho
        exact (length_filter_and_eq_iff (fun l => !l.optLine)
          (fun l => satisfiable_ids db u d l.ingredientId) r.lines).mp heq.symm
          l hl (by simp [ho])
    · rintro ⟨⟨x, hx, hox⟩, hall⟩
      refine ⟨Eq.symm ((length_filter_and_eq_iff _ _ _).mpr ?_),
        (length_filter_ne_zero_iff _ _).mpr ⟨x, hx, by simp [hox]⟩⟩
      intro y hy hpy
      exact hall y hy (by simpa using hpy)

/-- C1: a recipe is returned by `get_makeable_recipes(user, max_depth)`
iff it has at least one non-optional line and every non-optional line's
ingredient id is in the satisfiable set for that user and depth; in
particular an all-optional recipe is never returned, whatever the
inventory. -/
theorem makeable_membership (db : Db) (u : Nat) (d : Int) (r : Recipe) :
    r ∈ get_makeable_recipes db u d ↔
      r ∈ db.recipes ∧ (∃ l ∈ r.lines, l.optLine = false) ∧
        ∀ l ∈ r.lines, l.optLine = false →
          satisfiable_ids db u d l.ingredientId = true :=
  mem_makeable_iff db u d r

/-- Auxiliary: widening the closure-depth cutoff keeps every ancestor
category. -/
theorem user_anc_mono (db : Db) (u : Nat) (c1 c2 : Int) (h : c1 ≤ c2) (a : Nat)
    (ha : user_ancestor_categories db u c1 a = true) :
    user_ancestor_categories db u c2 a = true := by
  unfold user_ancestor_categories at ha ⊢
  rw [List.any_eq_true] at ha ⊢
  obtain ⟨r, hr, hp⟩ := ha
  refine ⟨r, hr, ?_⟩
  simp only [Bool.and_eq_true, decide_eq_true_eq] at hp ⊢
  exact ⟨⟨hp.1.1, le_trans hp.1.2 h⟩, hp.2⟩

/-- Auxiliary: `all_satisfiable_categories` is monotone in the depth. -/
theorem all_sat_mono (db : Db) (u : Nat) (d1 d2 : Int) (h : d1 ≤ d2) (c : Nat)
    (hc : all_satisfiable_categories db u d1 c = true) :
    all_satisfiable_categories db u d2 c = true := by
  unfold all_satisfiable_categories at hc ⊢
  rw [List.any_eq_true] at hc ⊢
  obtain ⟨r, hr, hp⟩ := hc
  refine ⟨r, hr, ?_⟩
  simp only [Bool.and_eq_true] at hp ⊢
  exact ⟨hp.1, user_anc_mono db u (d1 - 1) (d2 - 1) (by omega) r.ancestor hp.2⟩

/-- Auxiliary: satisfiability at depth 0 implies satisfiability at any
nonzero depth (the in-stock union). -/
theorem sat_zero_mono (db : Db) (u : Nat) (d : Int) (hd : d ≠ 0) (i : Nat)
    (h : satisfiable_ids db u 0 i = true) : satisfiable_ids db u d i = true := by
  unfold satisfiable_ids at h ⊢
  rw [if_pos (by simp)] at h
  rw [if_neg (by simp [hd])]
  simp only [Bool.or_eq_true]
  right
  exact h

/-- Auxiliary: satisfiability is monotone between nonzero depths. -/
theorem sat_mono (db : Db) (u : Nat) (d1 d2 : Int) (h1 : d1 ≠ 0) (h2 : d2 ≠ 0)
    (h : d1 ≤ d2) (i : Nat) (hs : satisfiable_ids db u d1 i = true) :
    satisfiable_ids db u d2 i = true := by
  unfold satisfiable_ids at hs ⊢
  rw [if_neg (by simp [h1])] at hs
  rw [if_neg (by simp [h2])]
  rw [Bool.or_eq_true] at hs ⊢
  rcases hs with hs | hs
  · left
    rw [List.any_eq_true] at hs ⊢
    obtain ⟨ing, hing, hp⟩ := hs
    refine ⟨ing, hing, ?_⟩
    simp only [Bool.and_eq_true] at hp ⊢
    refine ⟨hp.1, ?_⟩
    rw [List.any_eq_true] at hp ⊢
    obtain ⟨c, hc, hcs⟩ := hp.2
    exact ⟨c, hc, all_sat_mono db u d1 d2 h c hcs⟩
  · right; exact hs

/-- C2: for a fixed user and inventory, the makeable-recipe sets widen
monotonically with depth: the depth-0 result is contained in the depth-1
result, which is contained in the depth-2 result. -/
theorem makeable_monotone (db : Db) (u : Nat) (r : Recipe) :
    (r ∈ get_makeable_recipes db u 0 → r ∈ get_makeable_recipes db u 1) ∧
      (r ∈ get_makeable_recipes db u 1 → r ∈ get_makeable_recipes db u 2) := by
  constructor
  · intro h
    rw [mem_makeable_iff] at h ⊢
    obtain ⟨hm, hex, hall⟩ := h
    exact ⟨hm, hex, fun l hl ho =>
      sat_zero_mono db u 1 (by decide) _ (hall l hl ho)⟩
  · intro h
    rw [mem_makeable_iff] at h ⊢
    obtain ⟨hm, hex, hall⟩ := h
    exact ⟨hm, hex, fun l hl ho =>
      sat_mono db u 1 2 (by decide) (by decide) (by decide) _ (hall l hl ho)⟩

/-- Witness for C2: in `sampleDb` the recipe is makeable at depth 0, and
the theorem pushes it into the depth-1 result. -/
theorem makeable_monotone_witness :
    sampleRecipe ∈ get_makeable_recipes sampleDb 1 0 ∧
      sampleRecipe ∈ get_makeable_recipes sampleDb 1 1 :=
  ⟨by decide, (makeable_monotone sampleDb 1 sampleRecipe).1 (by decide)⟩

/-- Auxiliary: at a negative depth the closure-depth cutoff is negative,
no ancestor categories survive, and the satisfiable set degenerates to the
raw in-stock ids. -/
theorem sat_neg (db : Db) (u : Nat) (d : Int) (hd : d < 0) (i : Nat) :
    satisfiable_ids db u d i = (user_ing_ids db u).contains i := by
  have huac : ∀ a, user_ancestor_categories db u (d - 1) a = false := by
    intro a
    unfold user_ancestor_categories
    rw [List.any_eq_false]
    intro r hr
    have hdep : ¬ ((r.depth : Int) ≤ d - 1) := by omega
    simp [hdep]
  have hall : ∀ c, all_satisfiable_categories db u d c = false := by
    intro c
    unfold all_satisfiable_categories
    rw [List.any_eq_false]
    intro r hr
    simp [huac]
  unfold satisfiable_ids
  rw [if_neg (by simp; omega)]
  have h2 : db.ingredients.any (fun ing =>
      ing.id == i && ing.cats.any (all_satisfiable_categories db u d)) = false := by
    rw [List.any_eq_false]
    intro ing hing
    have : ing.cats.any (all_satisfiable_categories db u d) = false := by
      rw [List.any_eq_false]; intro c hc; simp [hall c]
    simp [this]
  rw [h2]
  simp

/-- Auxiliary: at depth 0 the satisfiable set is exactly the in-stock
set. -/
theorem sat_zero_eq (db : Db) (u : Nat) (i : Nat) :
    satisfiable_ids db u 0 i = (user_ing_ids db u).contains i := by
  simp [satisfiable_ids]

/-- C10: for a user with a non-empty inventory, every negative depth
yields exactly the same recipe list as depth 0: negative closure depths
match no closure rows, so the satisfiable set degenerates to the raw
in-stock ids. -/
theorem negative_depth_matches_zero (db : Db) (u : Nat) (d : Int)
    (hinv : (user_ing_ids db u).isEmpty = false) (hd : d < 0) :
    get_makeable_recipes db u d = get_makeable_recipes db u 0 := by
  have hsat : ∀ i, satisfiable_ids db u d i = satisfiable_ids db u 0 i := by
    intro i
    rw [sat_neg db u d hd i, sat_zero_eq db u i]
  unfold get_makeable_recipes
  rw [if_neg (by simp [hinv]), if_neg (by simp [hinv])]
  have hfc : ∀ rr ∈ db.recipes,
      (required_count rr == satisfied_count db u d rr && required_count rr != 0) =
        (required_count rr == satisfied_count db u 0 rr && required_count rr != 0) := by
    intro rr _
    have hsc : satisfied_count db u d rr = satisfied_count db u 0 rr := by
      unfold satisfied_count
      apply congrArg List.length
      apply List.filter_congr
      intro x _
      rw [hsat]
    rw [hsc]
  rw [List.filter_congr hfc]

/-- Witness for C10 at depth -2 on `sampleDb`. -/
theorem negative_depth_matches_zero_witness :
    (user_ing_ids sampleDb 1).isEmpty = false ∧ ((-2 : Int) < 0) ∧
      get_makeable_recipes sampleDb 1 (-2) = get_makeable_recipes sampleDb 1 0 :=
  ⟨by decide, by decide,
    negative_depth_matches_zero sampleDb 1 (-2) (by decide) (by decide)⟩

/-- Auxiliary: a successful first-match lookup survives appending rows. -/
theorem find?_append_some {α : Type} (p : α → Bool) (l1 l2 : List α) (r : α)
    (h : l1.find? p = some r) : (l1 ++ l2).find? p = some r := by
  induction l1 with
  | nil => simp [List.find?] at h
  | cons x xs ih =>
      cases hx : p x with
      | true =>
          rw [List.find?_cons_of_pos _ hx] at h
          rw [List.cons_append, List.find?_cons_of_pos _ hx]
          exact h
      | false =>
          rw [List.find?_cons_of_neg _ (by simp [hx])] at h
          rw [List.cons_append, List.find?_cons_of_neg _ (by simp [hx])]
          exact ih h

/-- Auxiliary: a failed lookup over an appended list fails over its
head part. -/
theorem find?_prefix_none {α : Type} (p : α → Bool) (l1 l2 : List α)
    (h : (l1 ++ l2).find? p = none) : l1.find? p = none := by
  cases hf : l1.find? p with
  | none => rfl
  | some r => rw [find?_append_some p l1 l2 r hf] at h; cases h

/-- Auxiliary: a failed lookup over the head part defers to the tail. -/
theorem find?_append_of_none {α : Type} (p : α → Bool) (l1 l2 : List α)
    (h : l1.find? p = none) : (l1 ++ l2).find? p = l2.find? p := by
  induction l1 with
  | nil => rfl
  | cons x xs ih =>
      cases hx : p x with
      | true => rw [List.find?_cons_of_pos _ hx] at h; cases h
      | false =>
          rw [List.find?_cons_of_neg _ (by simp [hx])] at h
          rw [List.cons_append, List.find?_cons_of_neg _ (by simp [hx])]
          exact ih h

theorem findRow_append_some (t xs : List ClosureRow) (c a : Nat) (r : ClosureRow)
    (h : findRow t c a = some r) : findRow (t ++ xs) c a = some r :=
  find?_append_some _ t xs r h

theorem findRow_append_isSome (t xs : List ClosureRow) (c a : Nat)
    (h : (findRow t c a).isSome) : (findRow (t ++ xs) c a).isSome := by
  obtain ⟨r, hr⟩ := Option.isSome_iff_exists.mp h
  rw [findRow_append_some t xs c a r hr]
  rfl

theorem findRow_prefix_none (t xs : List ClosureRow) (c a : Nat)
    (h : findRow (t ++ xs) c a = none) : findRow t c a = none :=
  find?_prefix_none _ t xs h

/-- Auxiliary: once a key is present, `depthOf` ignores appended rows. -/
theorem depthOf_append (t xs : List ClosureRow) (c a : Nat)
    (h : (findRow t c a).isSome) : depthOf (t ++ xs) c a = depthOf t c a := by
  obtain ⟨r, hr⟩ := Option.isSome_iff_exists.mp h
  unfold depthOf
  rw [hr, findRow_append_some t xs c a r hr]

/-- Auxiliary: membership characterization of `get_descendants`. -/
theorem mem_get_descendants (t : List ClosureRow) (c x : Nat) :
    x ∈ get_descendants t c ↔ ∃ r ∈ t, r.ancestor = c ∧ r.category = x := by
  unfold get_descendants
  rw [List.mem_map]
  constructor
  · rintro ⟨r, hr, rfl⟩
    rw [mem_orderBy, List.mem_filter] at hr
    exact ⟨r, hr.1, by simpa using hr.2, rfl⟩
  · rintro ⟨r, hr, ha, rfl⟩
    exact ⟨r, by rw [mem_orderBy, List.mem_filter]; exact ⟨hr, by simp [ha]⟩, rfl⟩

/-- Auxiliary: membership characterization of `get_ancestors`. -/
theorem mem_get_ancestors (t : List ClosureRow) (p x : Nat) :
    x ∈ get_ancestors t p ↔ ∃ r ∈ t, r.category = p ∧ r.ancestor = x := by
  unfold get_ancestors
  rw [List.mem_map]
  constructor
  · rintro ⟨r, hr, rfl⟩
    rw [mem_orderBy, List.mem_filter] at hr
    exact ⟨r, hr.1, by simpa using hr.2, rfl⟩
  · rintro ⟨r, hr, hc, rfl⟩
    exact ⟨r, by rw [mem_orderBy, List.mem_filter]; exact ⟨hr, by simp [hc]⟩, rfl⟩

/-- Auxiliary: a descendant of `c` always has a row to `c` in the table. -/
theorem descendant_findRow_isSome (t : List ClosureRow) (c x : Nat)
    (h : x ∈ get_descendants t c) : (findRow t x c).isSome := by
  rw [mem_get_descendants] at h
  obtain ⟨r, hr, ha, hc⟩ := h
  unfold findRow
  rw [List.find?_isSome]
  exact ⟨r, hr, by simp [ha, hc]⟩

/-- Auxiliary: the new parent has a row to each of its ancestors. -/
theorem ancestor_findRow_isSome (t : List ClosureRow) (p x : Nat)
    (h : x ∈ get_ancestors t p) : (findRow t p x).isSome := by
  rw [mem_get_ancestors] at h
  obtain ⟨r, hr, hc, ha⟩ := h
  unfold findRow
  rw [List.find?_isSome]
  exact ⟨r, hr, by simp [ha, hc]⟩

/-- Specification of a row freshly inserted by reparenting `child` under
`newParent` over table `t`: its key pairs a descendant of `child` with an
ancestor of `newParent`, the key was absent from `t`, and its depth is
the descendant's offset to `child`, plus one for the new edge, plus the
parent's offset to the ancestor. -/
def NewRowSpec (t : List ClosureRow) (child newParent : Nat)
    (r : ClosureRow) : Prop :=
  r.category ∈ get_descendants t child ∧
    r.ancestor ∈ get_ancestors t newParent ∧
    findRow t r.category r.ancestor = none ∧
    r.depth = depthOf t r.category child + 1 + depthOf t newParent r.ancestor

theorem getOrCreate_of_some (t : List ClosureRow) (c a d : Nat)
    (h : (findRow t c a).isSome) : getOrCreate t c a d = t := by
  obtain ⟨r, hr⟩ := Option.isSome_iff_exists.mp h
  unfold getOrCreate
  rw [hr]

theorem getOrCreate_of_none (t : List ClosureRow) (c a d : Nat)
    (h : findRow t c a = none) : getOrCreate t c a d = t ++ [⟨c, a, d⟩] := by
  unfold getOrCreate
  rw [h]

theorem reparentInner_cons (np dct base a : Nat) (as : List Nat)
    (acc : List ClosureRow) :
    reparentInner np dct base (a :: as) acc =
      reparentInner np dct base as
        (getOrCreate acc dct a (base + 1 + depthOf acc np a)) := rfl

theorem reparentInner_nil (np dct base : Nat) (acc : List ClosureRow) :
    reparentInner np dct base [] acc = acc := rfl

theorem reparentLoop_cons (child np dct : Nat) (ds pas : List Nat)
    (acc : List ClosureRow) :
    reparentLoop child np (dct :: ds) pas acc =
      reparentLoop child np ds pas
        (reparentInner np dct (depthOf acc dct child) pas acc) := rfl

theorem reparentLoop_nil (child np : Nat) (pas : List Nat)
    (acc : List ClosureRow) : reparentLoop child np [] pas acc = acc := rfl

/-- Auxiliary: the inner loop is a no-op when every pair it visits is
already present. -/
theorem reparentInner_noop (np dct base : Nat) (pas : List Nat)
    (acc : List ClosureRow)
    (h : ∀ a ∈ pas, (findRow acc dct a).isSome) :
    reparentInner np dct base pas acc = acc := by
  induction pas with
  | nil => rfl
  | cons a as ih =>
      rw [reparentInner_cons,
        getOrCreate_of_some acc dct a _ (h a (List.mem_cons_self a as))]
      exact ih (fun a' ha' => h a' (List.mem_cons_of_mem a ha'))

/-- Auxiliary: the outer loop is a no-op when every (descendant, ancestor)
pair is already present. -/
theorem reparentLoop_noop (child np : Nat) (descs pas : List Nat)
    (acc : List ClosureRow)
    (h : ∀ d ∈ descs, ∀ a ∈ pas, (findRow acc d a).isSome) :
    reparentLoop child np descs pas acc = acc := by
  induction descs with
  | nil => rfl
  | cons dct ds ih =>
      rw [reparentLoop_cons,
        reparentInner_noop np dct _ pas acc (h dct (List.mem_cons_self dct ds))]
      exact ih (fun d hd a ha => h d (List.mem_cons_of_mem dct hd) a ha)

/-- Invariant of the inner reparent loop: starting from `t` extended by
already-specified rows, it only appends rows satisfying `NewRowSpec`, and
afterwards the processed descendant has a row to every visited ancestor. -/
theorem reparentInner_spec (t : List ClosureRow) (child np base dct : Nat)
    (hd : dct ∈ get_descendants t child)
    (hbase : base = depthOf t dct child) :
    ∀ (pas : List Nat), (∀ a ∈ pas, a ∈ get_ancestors t np) →
      ∀ (acc xs : List ClosureRow), acc = t ++ xs →
        (∀ r ∈ xs, NewRowSpec t child np r) →
        ∃ ys, reparentInner np dct base pas acc = t ++ (xs ++ ys) ∧
          (∀ r ∈ ys, NewRowSpec t child np r) ∧
          (∀ a ∈ pas,
            (findRow (reparentInner np dct base pas acc) dct a).isSome) := by
  intro pas
  induction pas with
  | nil =>
      intro _ acc xs hacc hxs
      exact ⟨[], by simp [reparentInner_nil, hacc], by simp, by simp⟩
  | cons a as ih =>
      intro hpas acc xs hacc hxs
      have hante : a ∈ get_ancestors t np := hpas a (List.mem_cons_self a as)
      have hsome_pa : (findRow t np a).isSome := ancestor_findRow_isSome t np a hante
      have hdep : depthOf acc np a = depthOf t np a := by
        rw [hacc]; exact depthOf_append t xs np a hsome_pa
      cases hfa : findRow acc dct a with
      | some r =>
          have hstep : getOrCreate acc dct a (base + 1 + depthOf acc np a) = acc :=
            getOrCreate_of_some acc dct a _ (by rw [hfa]; rfl)
          obtain ⟨ys, h1, h2, h3⟩ :=
            ih (fun x hx => hpas x (List.mem_cons_of_mem a hx)) acc xs hacc hxs
          refine ⟨ys, ?_, h2, ?_⟩
          · rw [reparentInner_cons, hstep]; exact h1
          · intro a' ha'
            rcases List.mem_cons.mp ha' with rfl | ha'
            · rw [reparentInner_cons, hstep, h1, ← List.append_assoc, ← hacc]
              exact findRow_append_isSome acc ys dct a' (by rw [hfa]; rfl)
            · rw [reparentInner_cons, hstep]
              exact h3 a' ha'
      | none =>
          have hnone_t : findRow t dct a = none :=
            findRow_prefix_none t xs dct a (by rw [← hacc]; exact hfa)
          have hstep : getOrCreate acc dct a (base + 1 + depthOf acc np a) =
              t ++ (xs ++ [⟨dct, a, base + 1 + depthOf t np a⟩]) := by
            rw [getOrCreate_of_none acc dct a _ hfa, hdep, hacc, List.append_assoc]
          have hrow : NewRowSpec t child np ⟨dct, a, base + 1 + depthOf t np a⟩ :=
            ⟨hd, hante, hnone_t, by simp [hbase]⟩
          have hxs' : ∀ r ∈ xs ++ [⟨dct, a, base + 1 + depthOf t np a⟩],
              NewRowSpec t child np r := by
            intro r hr
            rcases List.mem_append.mp hr with h | h
            · exact hxs r h
            · rw [List.mem_singleton.mp h]; exact hrow
          obtain ⟨ys, h1, h2, h3⟩ :=
            ih (fun x hx => hpas x (List.mem_cons_of_mem a hx))
              (t ++ (xs ++ [⟨dct, a, base + 1 + depthOf t np a⟩]))
              (xs ++ [⟨dct, a, base + 1 + depthOf t np a⟩]) rfl hxs'
          refine ⟨[⟨dct, a, base + 1 + depthOf t np a⟩] ++ ys, ?_, ?_, ?_⟩
          · rw [reparentInner_cons, hstep, h1]
            simp [List.append_assoc]
          · intro r hr
            rcases List.mem_append.mp hr with h | h
            · rw [List.mem_singleton.mp h]; exact hrow
            · exact h2 r h
          · intro a' ha'
            rcases List.mem_cons.mp ha' with rfl | ha'
            · rw [reparentInner_cons, hstep, h1, ← List.append_assoc]
              apply findRow_append_isSome
              have hacc_none : findRow acc dct a' = none := hfa
              rw [hacc] at hacc_none
              rw [← List.append_assoc]
              unfold findRow
              rw [find?_append_of_none _ (t ++ xs) _ hacc_none]
              simp [List.find?]
            · rw [reparentInner_cons, hstep]
              exact h3 a' ha'

/-- Invariant of the outer reparent loop: it only appends rows satisfying
`NewRowSpec`, and afterwards every processed descendant has a row to every
ancestor in `pas`. -/
theorem reparentLoop_spec (t : List ClosureRow) (child np : Nat)
    (pas : List Nat) (hpas : ∀ a ∈ pas, a ∈ get_ancestors t np) :
    ∀ (descs : List Nat), (∀ x ∈ descs, x ∈ get_descendants t child) →
      ∀ (acc xs : List ClosureRow), acc = t ++ xs →
        (∀ r ∈ xs, NewRowSpec t child np r) →
        ∃ ys, reparentLoop child np descs pas acc = t ++ (xs ++ ys) ∧
          (∀ r ∈ ys, NewRowSpec t child np r) ∧
          (∀ dct ∈ descs, ∀ a ∈ pas,
            (findRow (reparentLoop child np descs pas acc) dct a).isSome) := by
  intro descs
  induction descs with
  | nil =>
      intro _ acc xs hacc hxs
      exact ⟨[], by simp [reparentLoop_nil, hacc], by simp, by simp⟩
  | cons dct ds ih =>
      intro hds acc xs hacc hxs
      have hd : dct ∈ get_descendants t child := hds dct (List.mem_cons_self dct ds)
      have hbase : depthOf acc dct child = depthOf t dct child := by
        rw [hacc]
        exact depthOf_append t xs dct child (descendant_findRow_isSome t child dct hd)
      obtain ⟨ys1, h1, h2, h3⟩ :=
        reparentInner_spec t child np (depthOf acc dct child) dct hd hbase
          pas hpas acc xs hacc hxs
      obtain ⟨ys2, g1, g2, g3⟩ :=
        ih (fun x hx => hds x (List.mem_cons_of_mem dct hx))
          (t ++ (xs ++ ys1)) (xs ++ ys1) rfl (by
            intro r hr
            rcases List.mem_append.mp hr with h | h
            · exact hxs r h
            · exact h2 r h)
      refine ⟨ys1 ++ ys2, ?_, ?_, ?_⟩
      · rw [reparentLoop_cons, h1, g1]
        simp [List.append_assoc]
      · intro r hr
        rcases List.mem_append.mp hr with h | h
        · exact h2 r h
        · exact g2 r h
      · intro dct' hdct' a ha
        rcases List.mem_cons.mp hdct' with rfl | hdct'
        · rw [reparentLoop_cons, h1, g1, ← List.append_assoc, ← h1]
          exact findRow_append_isSome _ ys2 dct' a (by rw [h1]; exact (by rw [← h1]; exact h3 a ha))
        · rw [reparentLoop_cons, h1]
          exact g3 dct' hdct' a ha

/-- C3: for a closure table with unique keys, when the reparent of
`child` under `np` actually runs (no depth-1 link yet), afterwards every
descendant of `child` has a row to every ancestor of `np` (self
included); every row of the result is either an original row or a fresh
row at depth `depth(d, child) + 1 + depth(np, ancestor)` for a previously
absent (descendant, ancestor) key; and no pre-existing row is deleted or
has its depth overwritten. -/
theorem reparent_adds_ancestor_rows (t : List ClosureRow) (child np : Nat)
    (huniq : keysUnique t = true)
    (hnolink : hasLink t child np 1 = false) :
    (∀ d ∈ get_descendants t child, ∀ a ∈ get_ancestors t np,
        ∃ r ∈ reparent_category t child np, r.category = d ∧ r.ancestor = a) ∧
      (∀ r ∈ reparent_category t child np, r ∈ t ∨ NewRowSpec t child np r) ∧
      (∀ r ∈ t, r ∈ reparent_category t child np) := by
  obtain ⟨ys, h1, h2, h3⟩ :=
    reparentLoop_spec t child np (get_ancestors t np) (fun a ha => ha)
      (get_descendants t child) (fun x hx => hx) t [] (by simp) (by simp)
  have hrun : reparent_category t child np = t ++ ys := by
    unfold reparent_category
    rw [if_neg (by simp [hnolink]), h1]
    simp
  refine ⟨?_, ?_, ?_⟩
  · intro d hd a ha
    have hs := h3 d hd a ha
    rw [h1] at hs
    unfold findRow at hs
    rw [List.find?_isSome] at hs
    obtain ⟨r, hr, hp⟩ := hs
    simp only [Bool.and_eq_true, beq_iff_eq] at hp
    refine ⟨r, ?_, hp.1, hp.2⟩
    rw [hrun]
    simpa using hr
  · intro r hr
    rw [hrun] at hr
    rcases List.mem_append.mp hr with h | h
    · exact Or.inl h
    · exact Or.inr (h2 r h)
  · intro r hr
    rw [hrun]
    exact List.mem_append_left ys hr

/-- Witness for C3 on the two-root closure table, reparenting 1 under 2. -/
theorem reparent_adds_ancestor_rows_witness :
    keysUnique sampleClosure = true ∧ hasLink sampleClosure 1 2 1 = false ∧
      ((∀ d ∈ get_descendants sampleClosure 1, ∀ a ∈ get_ancestors sampleClosure 2,
          ∃ r ∈ reparent_category sampleClosure 1 2,
            r.category = d ∧ r.ancestor = a) ∧
        (∀ r ∈ reparent_category sampleClosure 1 2,
          r ∈ sampleClosure ∨ NewRowSpec sampleClosure 1 2 r) ∧
        (∀ r ∈ sampleClosure, r ∈ reparent_category sampleClosure 1 2)) :=
  ⟨by decide, by decide,
    reparent_adds_ancestor_rows sampleClosure 1 2 (by decide) (by decide)⟩

/-- C4: reparenting `child` under `np` twice leaves the closure table
exactly as one application does - the second pass either exits on the
now-present depth-1 link or finds every (descendant, ancestor) pair
already present and inserts nothing. -/
theorem reparent_idempotent (t : List ClosureRow) (child np : Nat) :
    reparent_category (reparent_category t child np) child np =
      reparent_category t child np := by
  by_cases h1 : hasLink t child np 1 = true
  · have heq : reparent_category t child np = t := by
      unfold reparent_category
      rw [if_pos h1]
    rw [heq]
    exact heq
  · obtain ⟨ys, hT2, hys, hsome⟩ :=
      reparentLoop_spec t child np (get_ancestors t np) (fun a ha => ha)
        (get_descendants t child) (fun x hx => hx) t [] (by simp) (by simp)
    have hT2' : reparentLoop child np (get_descendants t child)
        (get_ancestors t np) t = t ++ ys := by
      rw [hT2]; simp
    have hrun1 : reparent_category t child np = t ++ ys := by
      unfold reparent_category
      rw [if_neg h1, hT2']
    have hfilter_anc : (t ++ ys).filter (fun r => r.ancestor == child) =
        t.filter (fun r => r.ancestor == child) := by
      rw [List.filter_append]
      have hnil : ys.filter (fun r => r.ancestor == child) = [] := by
        rw [List.filter_eq_nil_iff]
        intro r hr hbe
        obtain ⟨hcat, hanc, hnone, hdep⟩ := hys r hr
        have hac : r.ancestor = child := by simpa using hbe
        have hs := descendant_findRow_isSome t child r.category hcat
        rw [hac] at hnone
        rw [hnone] at hs
        simp at hs
      rw [hnil, List.append_nil]
    have hdesc_eq : get_descendants (t ++ ys) child = get_descendants t child := by
      unfold get_descendants
      rw [hfilter_anc]
    have hfilter_cat : (t ++ ys).filter (fun r => r.category == np) =
        t.filter (fun r => r.category == np) := by
      rw [List.filter_append]
      have hnil : ys.filter (fun r => r.category == np) = [] := by
        rw [List.filter_eq_nil_iff]
        intro r hr hbe
        obtain ⟨hcat, hanc, hnone, hdep⟩ := hys r hr
        have hcp : r.category = np := by simpa using hbe
        have hs := ancestor_findRow_isSome t np r.ancestor hanc
        rw [hcp] at hnone
        rw [hnone] at hs
        simp at hs
      rw [hnil, List.append_nil]
    have hanc_eq : get_ancestors (t ++ ys) np = get_ancestors t np := by
      unfold get_ancestors
      rw [hfilter_cat]
    have hsome' : ∀ d ∈ get_descendants t child, ∀ a ∈ get_ancestors t np,
        (findRow (t ++ ys) d a).isSome := by
      intro d hd a ha
      have hs := hsome d hd a ha
      rw [hT2'] at hs
      exact hs
    rw [hrun1]
    unfold reparent_category
    by_cases h2 : hasLink (t ++ ys) child np 1 = true
    · rw [if_pos h2]
    · rw [if_neg h2, hdesc_eq, hanc_eq]
      exact reparentLoop_noop child np (get_descendants t child)
        (get_ancestors t np) (t ++ ys) hsome'
